import Mathlib

/-!
Verification development for the runtime object model in
`sixtyfps_runtime/corelib/abi/datastructures.rs`: colors, layout info,
the render-cache slot, the dual-representation path model with its lazy
transformed iterator, and the static item-tree encoding with its
traversal engine.

Machine scalars are embedded shallowly: `u8`/`u32` values as `Nat`
(with explicit `% 2 ^ w` truncation where the code truncates), and
`f32` coordinates as exact rationals `ℚ`.  The claims settled over the
rational embedding only exercise operations (comparison, `min`/`max`,
field arithmetic on non-zero denominators, pass-through of literals)
on which `f32` and `ℚ` agree for the values involved.
-/

namespace Sixtyfps

/-! ## Color (datastructures.rs lines 146-205)

`u8` channels are carried as `Nat`; the Rust `as u8` truncating cast is
`% 256`, and `encoded >> k` is `Nat.shiftRight`. -/

/-- RGBA color, mirroring `struct Color { red, green, blue, alpha: u8 }`. -/
structure Color where
  red : Nat
  green : Nat
  blue : Nat
  alpha : Nat
deriving DecidableEq

/-- Mirror of `Color::from_argb_encoded`: construct a color from an integer
encoded as `0xAARRGGBB`; each `(encoded >> k) as u8` cast keeps the low
8 bits. -/
def Color.from_argb_encoded (encoded : Nat) : Color :=
  { red := (encoded >>> 16) % 256
    green := (encoded >>> 8) % 256
    blue := encoded % 256
    alpha := (encoded >>> 24) % 256 }

/-- Mirror of `Color::as_rgba_u8`: returns `(red, green, blue, alpha)`. -/
def Color.as_rgba_u8 (self : Color) : Nat × Nat × Nat × Nat :=
  (self.red, self.green, self.blue, self.alpha)

/-- Mirror of `Color::as_argb_encoded`. -/
def Color.as_argb_encoded (self : Color) : Nat :=
  (self.red <<< 16) ||| (self.green <<< 8) ||| self.blue ||| (self.alpha <<< 24)

/-! ## LayoutInfo (datastructures.rs lines 130-144)

The default uses the `f32` values `0.` and `f32::MAX`.  To compare the
default against the claimed `+infinity` we embed an `f32` value as either
an exact rational or one of the three non-finite classes. -/

/-- Shallow embedding of an `f32` value: an exact finite rational or a
non-finite class. -/
inductive FloatVal where
  | finite (val : ℚ)
  | posInf
  | negInf
  | nan
deriving DecidableEq

/-- The exact value of `f32::MAX`, i.e. `(2 - 2⁻²³) · 2¹²⁷`. -/
def f32MaxVal : ℚ := 340282346638528859811704183484516925440

/-- Mirror of `struct LayoutInfo { min_width, max_width, min_height, max_height: f32 }`. -/
structure LayoutInfo where
  min_width : FloatVal
  max_width : FloatVal
  min_height : FloatVal
  max_height : FloatVal
deriving DecidableEq

/-- Mirror of `impl Default for LayoutInfo`:
`LayoutInfo { min_width: 0., max_width: f32::MAX, min_height: 0., max_height: f32::MAX }`. -/
def LayoutInfo.default : LayoutInfo :=
  { min_width := .finite 0
    max_width := .finite f32MaxVal
    min_height := .finite 0
    max_height := .finite f32MaxVal }

/-! ## CachedRenderingData (datastructures.rs lines 58-82)

The `Cell` fields are read-only through `low_level_rendering_primitive`,
so the struct is embedded as a plain record.  The backend's
`RenderingCache::entry_at` lookup (an external collaborator living
outside this file's source) is abstracted as an arbitrary total lookup
function `Nat → α`; the function under verification never inspects the
index itself. -/

/-- Mirror of `struct CachedRenderingData { cache_index: Cell<usize>, cache_ok: Cell<bool> }`. -/
structure CachedRenderingData where
  cache_index : Nat
  cache_ok : Bool
deriving DecidableEq

/-- Mirror of `CachedRenderingData::low_level_rendering_primitive`:
```
if !self.cache_ok.get() { return None; }
Some(cache.entry_at(self.cache_index.get()))
```
with the cache's `entry_at` abstracted as the lookup `cache`. -/
def CachedRenderingData.low_level_rendering_primitive {α : Type}
    (self : CachedRenderingData) (cache : Nat → α) : Option α :=
  if !self.cache_ok then none
  else some (cache self.cache_index)

/-! ## Path geometry model (datastructures.rs lines 250-541)

Coordinates are `f32` in the source and exact rationals here.  The lyon
event type `Event<Point, Point>` is embedded as `LEvent`. -/

/-- A 2D point (`euclid::default::Point2D<f32>` / `lyon::math::Point`). -/
structure Pt where
  x : ℚ
  y : ℚ
deriving DecidableEq

/-- Mirror of the lyon path event `lyon::path::Event<Point, Point>` as
produced by `ToLyonPathEventIterator` and by iterating a built path. -/
inductive LEvent where
  | begin (at' : Pt)
  | line (from' toP : Pt)
  | quadratic (from' ctrl toP : Pt)
  | cubic (from' ctrl1 ctrl2 toP : Pt)
  | end' (first last : Pt) (close : Bool)
deriving DecidableEq

/-- Mirror of `enum PathEvent { Begin, Line, Quadratic, Cubic, EndOpen, EndClosed }`. -/
inductive PathEvent where
  | begin
  | line
  | quadratic
  | cubic
  | endOpen
  | endClosed
deriving DecidableEq

/-- Mirror of `struct PathLineTo { x, y: f32 }`. -/
structure PathLineTo where
  x : ℚ
  y : ℚ
deriving DecidableEq

/-- Mirror of `struct PathArcTo { x, y, radius_x, radius_y, x_rotation: f32, large_arc, sweep: bool }`. -/
structure PathArcTo where
  x : ℚ
  y : ℚ
  radius_x : ℚ
  radius_y : ℚ
  x_rotation : ℚ
  large_arc : Bool
  sweep : Bool
deriving DecidableEq

/-- Mirror of `enum PathElement { LineTo(PathLineTo), ArcTo(PathArcTo), Close }`. -/
inductive PathElement where
  | lineTo (p : PathLineTo)
  | arcTo (a : PathArcTo)
  | close
deriving DecidableEq

/-! ### `ToLyonPathEventIterator` (datastructures.rs lines 325-370)

The iterator state carries the not-yet-consumed events and coordinates
together with the `first`/`last` fields captured from the whole
coordinate array at construction (`LyonPathIterator::iter`, lines
411-428).  `next` is embedded as an `Except`-valued step: `.error ()`
models reaching one of the `unwrap()` panic branches, `.ok none` models
normal exhaustion, `.ok (some _)` a yielded event. -/

/-- State of `ToLyonPathEventIterator`. -/
structure IterState where
  events : List PathEvent
  coords : List Pt
  first : Option Pt
  last : Option Pt
deriving DecidableEq

/-- Mirror of `ToLyonPathEventIterator::next`: each tag draws its points
from the shared coordinate iterator in order; `EndOpen`/`EndClosed`
instead unwrap the stored `first`/`last`. -/
def nextEv : IterState → Except Unit (Option (LEvent × IterState))
  | ⟨[], _, _, _⟩ => .ok none
  | ⟨e :: rest, cs, f, l⟩ =>
    match e with
    | .begin =>
      match cs with
      | c1 :: cs' => .ok (some (.begin c1, ⟨rest, cs', f, l⟩))
      | _ => .error ()
    | .line =>
      match cs with
      | c1 :: c2 :: cs' => .ok (some (.line c1 c2, ⟨rest, cs', f, l⟩))
      | _ => .error ()
    | .quadratic =>
      match cs with
      | c1 :: c2 :: c3 :: cs' => .ok (some (.quadratic c1 c2 c3, ⟨rest, cs', f, l⟩))
      | _ => .error ()
    | .cubic =>
      match cs with
      | c1 :: c2 :: c3 :: c4 :: cs' => .ok (some (.cubic c1 c2 c3 c4, ⟨rest, cs', f, l⟩))
      | _ => .error ()
    | .endOpen =>
      match f, l with
      | some fp, some lp => .ok (some (.end' fp lp false, ⟨rest, cs, f, l⟩))
      | _, _ => .error ()
    | .endClosed =>
      match f, l with
      | some fp, some lp => .ok (some (.end' fp lp true, ⟨rest, cs, f, l⟩))
      | _, _ => .error ()

/-- Drive `nextEv` to completion (the fuel is the number of pending
events; each successful step consumes exactly one event). -/
def runAll : Nat → IterState → Except Unit (List LEvent)
  | 0, _ => .ok []
  | fuel + 1, s =>
    match nextEv s with
    | .error e => .error e
    | .ok none => .ok []
    | .ok (some (ev, s')) => (runAll fuel s').map (ev :: ·)

/-- Full iteration of the `Events` form as set up by
`LyonPathIterator::iter`: `first`/`last` are the first and last
coordinate of the whole array. -/
def iterAllEvents (evs : List PathEvent) (cs : List Pt) : Except Unit (List LEvent) :=
  runAll evs.length ⟨evs, cs, cs.head?, cs.getLast?⟩

/-- Number of coordinates consumed by one event tag in
`ToLyonPathEventIterator::next`. -/
def consume : PathEvent → Nat
  | .begin => 1
  | .line => 2
  | .quadratic => 3
  | .cubic => 4
  | .endOpen => 0
  | .endClosed => 0

/-- Whether the tag reads the stored whole-array `first`/`last` points. -/
def usesFirstLast : PathEvent → Bool
  | .endOpen => true
  | .endClosed => true
  | _ => false

/-- Total number of coordinates consumed by an event sequence. -/
def totalConsume (evs : List PathEvent) : Nat := (evs.map consume).sum

/-- Well-formedness of an `Events`-form pair: enough coordinates for
every tag, and a non-empty coordinate array whenever some tag needs the
whole-array first/last points. -/
def wfEvents (evs : List PathEvent) (cs : List Pt) : Prop :=
  totalConsume evs ≤ cs.length ∧ (evs.any usesFirstLast = true → cs ≠ [])

/-- The event value built from the coordinates taken by one tag (used to
state the consumption theorem; the anonymous fallback is unreachable
when the taken list has the tag's arity). -/
def mkEv (e : PathEvent) (taken : List Pt) (f l : Option Pt) : LEvent :=
  match e, taken with
  | .begin, [c1] => .begin c1
  | .line, [c1, c2] => .line c1 c2
  | .quadratic, [c1, c2, c3] => .quadratic c1 c2 c3
  | .cubic, [c1, c2, c3, c4] => .cubic c1 c2 c3 c4
  | .endOpen, _ => .end' (f.getD ⟨0, 0⟩) (l.getD ⟨0, 0⟩) false
  | .endClosed, _ => .end' (f.getD ⟨0, 0⟩) (l.getD ⟨0, 0⟩) true
  | _, _ => .begin ⟨0, 0⟩

/-! ### Transforms, bounding boxes and fitting
(datastructures.rs lines 374-454)

`lyon::math::Transform` values are only ever produced here by
`lyon::algorithms::fit::fit_rectangle`, which yields a
scale-and-translate transform, so the embedding carries exactly those
components.  Modelled from the spec: `fit_rectangle` with
`FitStyle::Min` derives "the minimal-scale-preserving transform that
maps that box into the target rectangle (fit style = shrink/grow to
fit, preserve aspect, anchor to minimum corner)", and `bounding_rect`
computes the path's bounding box (exact for line segments; theorems
relying on its value restrict paths to non-curve events). -/

/-- Scale-and-translate affine transform (the image of
`fit_rectangle`). -/
structure Transform where
  sx : ℚ
  sy : ℚ
  tx : ℚ
  ty : ℚ
deriving DecidableEq

/-- Apply a transform to a point. -/
def applyPt (T : Transform) (p : Pt) : Pt :=
  ⟨T.sx * p.x + T.tx, T.sy * p.y + T.ty⟩

/-- Mirror of `lyon::path::Event::transformed`: apply the transform to
every point of the event (this is what `TransformedLyonPathIterator`
maps over the inner iterator). -/
def applyEv (T : Transform) : LEvent → LEvent
  | .begin a => .begin (applyPt T a)
  | .line a b => .line (applyPt T a) (applyPt T b)
  | .quadratic a b c => .quadratic (applyPt T a) (applyPt T b) (applyPt T c)
  | .cubic a b c d => .cubic (applyPt T a) (applyPt T b) (applyPt T c) (applyPt T d)
  | .end' f l close => .end' (applyPt T f) (applyPt T l) close

/-- Axis-aligned rectangle (`euclid` `Rect<f32>`). -/
structure QRect where
  x : ℚ
  y : ℚ
  w : ℚ
  h : ℚ
deriving DecidableEq

/-- Mirror of `Rect::from_size(Size::new(width, height))`: origin at
`(0, 0)`. -/
def rectFromSize (w h : ℚ) : QRect := ⟨0, 0, w, h⟩

/-- The points stored in one event. -/
def eventPts : LEvent → List Pt
  | .begin a => [a]
  | .line a b => [a, b]
  | .quadratic a b c => [a, b, c]
  | .cubic a b c d => [a, b, c, d]
  | .end' f l _ => [f, l]

/-- Whether an event is a curve (its stored control points are not on
the path, so the point-hull bounding box below is not the tight lyon
one for it). -/
def isCurveEv : LEvent → Bool
  | .quadratic _ _ _ => true
  | .cubic _ _ _ _ => true
  | _ => false

/-- Modelled from the spec: `lyon::algorithms::aabb::bounding_rect` —
the smallest rectangle containing all points of the path (the hull of
the stored points; tight whenever no curve event occurs). -/
def boundingRect (evs : List LEvent) : QRect :=
  match evs.flatMap eventPts with
  | [] => ⟨0, 0, 0, 0⟩
  | p :: ps =>
    ⟨(ps.map Pt.x).foldl min p.x,
     (ps.map Pt.y).foldl min p.y,
     (ps.map Pt.x).foldl max p.x - (ps.map Pt.x).foldl min p.x,
     (ps.map Pt.y).foldl max p.y - (ps.map Pt.y).foldl min p.y⟩

/-- Modelled from the spec: `lyon::algorithms::fit::fit_rectangle(src,
dst, FitStyle::Min)` — uniform scale `min(dst.w/src.w, dst.h/src.h)`,
translating the scaled minimum corner of `src` onto the minimum corner
of `dst`. -/
def fitRectangle (src dst : QRect) : Transform :=
  ⟨min (dst.w / src.w) (dst.h / src.h),
   min (dst.w / src.w) (dst.h / src.h),
   dst.x - min (dst.w / src.w) (dst.h / src.h) * src.x,
   dst.y - min (dst.w / src.w) (dst.h / src.h) * src.y⟩

/-- Mirror of `LyonPathIterator`: the underlying variant's resolved
event sequence plus the optional transform (`transform: Option<...>`,
initially `None` from `PathData::iter`). -/
structure LyonPathIterator where
  baseEvents : List LEvent
  transform : Option Transform
deriving DecidableEq

/-- Mirror of `LyonPathIterator::iter` composed with
`apply_transform`: `Some(transform)` wraps the inner iterator in
`TransformedLyonPathIterator`, `None` is the identity pass-through. -/
def iterLy (it : LyonPathIterator) : List LEvent :=
  match it.transform with
  | none => it.baseEvents
  | some T => it.baseEvents.map (applyEv T)

/-- Mirror of `LyonPathIterator::fitted`:
```
if width > 0. || height > 0. {
    let br = bounding_rect(self.iter());
    self.transform = Some(fit_rectangle(&br, &Rect::from_size(Size::new(width, height)), FitStyle::Min));
}
self
```
Note the transform is replaced, not composed. -/
def fitted (it : LyonPathIterator) (w h : ℚ) : LyonPathIterator :=
  if 0 < w ∨ 0 < h then
    { it with transform := some (fitRectangle (boundingRect (iterLy it)) (rectFromSize w h)) }
  else it

/-! ### `PathData::build_path` (datastructures.rs lines 493-540)

The SVG path builder (`lyon::path::Path::builder().with_svg()`) is
embedded as a state machine.  Modelled from the spec / lyon semantics:
the builder starts at position `(0, 0)` with no open subpath; a
`line_to` with no open subpath begins one at the target point; `close`
emits the closing end event and returns the cursor to the subpath's
first point; `build` ends a still-open subpath with a non-closing end
event.  Flattening a non-degenerate arc (`arc_to`) is kept as an
explicit parameter `arcImpl`, so every theorem below holds for any arc
flattening; the degeneracy check `SvgArc::is_straight_line` is the
zero-curvature test: either radius within `f32::EPSILON` of zero, or
coincident endpoints. -/

/-- State of the SVG path builder: cursor position, first point of the
open subpath (if any), and the events emitted so far. -/
structure SvgState where
  current : Pt
  firstPt : Option Pt
  events : List LEvent
deriving DecidableEq

/-- `f32::EPSILON` = 2⁻²³. -/
def epsF32 : ℚ := 1 / 2 ^ 23

/-- Modelled from the spec: `lyon::geom::SvgArc::is_straight_line` —
degenerate when either radius is within epsilon of zero or the chord
has coincident endpoints. -/
def isStraightLine (radii fromP toP : Pt) : Bool :=
  decide (|radii.x| ≤ epsF32) || decide (|radii.y| ≤ epsF32) || decide (fromP = toP)

/-- Builder `line_to`: begins a subpath at the target if none is open,
otherwise emits a line from the cursor. -/
def lineToM (s : SvgState) (toP : Pt) : SvgState :=
  match s.firstPt with
  | none => ⟨toP, some toP, s.events ++ [.begin toP]⟩
  | some _ => ⟨toP, s.firstPt, s.events ++ [.line s.current toP]⟩

/-- Builder `close`: ends the open subpath with a closing end event and
returns the cursor to its first point (no-op without an open subpath). -/
def closeM (s : SvgState) : SvgState :=
  match s.firstPt with
  | none => s
  | some f => ⟨f, none, s.events ++ [.end' f s.current true]⟩

/-- One iteration of the `for element in element_it` loop of
`PathData::build_path`: `LineTo` → `line_to`; `ArcTo` → the
`is_straight_line` check, then `line_to` or the arc flattening;
`Close` → `close`. -/
def stepEl (arcImpl : SvgState → PathArcTo → SvgState) (s : SvgState) :
    PathElement → SvgState
  | .lineTo p => lineToM s ⟨p.x, p.y⟩
  | .arcTo a =>
    if isStraightLine ⟨a.radius_x, a.radius_y⟩ s.current ⟨a.x, a.y⟩ then
      lineToM s ⟨a.x, a.y⟩
    else arcImpl s a
  | .close => closeM s

/-- The builder's initial state. -/
def initSvg : SvgState := ⟨⟨0, 0⟩, none, []⟩

/-- Builder `build()` followed by iterating the finished path: a
still-open subpath contributes its non-closing end event. -/
def buildFinishM (s : SvgState) : List LEvent :=
  match s.firstPt with
  | none => s.events
  | some f => s.events ++ [.end' f s.current false]

/-- Mirror of `PathData::build_path` (composed with iterating the built
path): fold the elements through the builder and finish. -/
def buildPathWith (arcImpl : SvgState → PathArcTo → SvgState)
    (els : List PathElement) : List LEvent :=
  buildFinishM (els.foldl (stepEl arcImpl) initSvg)

/-- Mirror of `PathData::iter` on the `Elements` variant: the built
path with no transform installed. -/
def pathDataIterElements (arcImpl : SvgState → PathArcTo → SvgState)
    (els : List PathElement) : LyonPathIterator :=
  ⟨buildPathWith arcImpl els, none⟩

/-! ## Item tree encoding and traversal
(datastructures.rs lines 84-105 and 699-748)

`ItemTreeNode` is mirrored without the item byte offset (the traversal
is about node indices; the `vtable::VOffset` payload never influences
which nodes are visited).  The traversal engine itself,
`crate::item_tree::visit_item_tree`, is re-exported here
(`sixtyfps_visit_item_tree`) but its body lives outside the given
sources.  Modelled from the spec (§4.5, §8): a full traversal from the
root visits the item at index 0 and, recursively, for each visited
`Item` node the nodes of its contiguous child range
`[children_index, children_index + chilren_count)`; a `DynamicTree`
placeholder has no static children (its run-time children live in other
components reached through `visit_dynamic`) and the visitor is not
invoked for it. -/

/-- Mirror of `enum ItemTreeNode` (the source spells the field
`chilren_count`). -/
inductive ItemTreeNode where
  | item (chilren_count : Nat) (children_index : Nat)
  | dynamicTree (index : Nat)
deriving DecidableEq

/-- The static item-tree array of a component. -/
abbrev ItemTree := List ItemTreeNode

/-- The child range of the node at `i`: contiguous indices starting at
`children_index` for `Item` nodes, empty otherwise. -/
def childIndices (t : ItemTree) (i : Nat) : List Nat :=
  match t[i]? with
  | some (.item cc ci) => (List.range cc).map (ci + ·)
  | _ => []

/-- Whether index `i` holds a static `Item` node. -/
def isItemAt (t : ItemTree) (i : Nat) : Bool :=
  match t[i]? with
  | some (.item _ _) => true
  | _ => false

/-- Per-node well-formedness: a non-empty child range points strictly
forward and stays in bounds. -/
def nodeOkB (t : ItemTree) (i : Nat) : Bool :=
  match t[i]? with
  | some (.item cc ci) => (cc == 0 || decide (i < ci)) && decide (ci + cc ≤ t.length)
  | _ => true

/-- Every non-root index lies in some node's child range. -/
def coveredB (t : ItemTree) (j : Nat) : Bool :=
  j == 0 || (List.range t.length).any (fun i => decide (j ∈ childIndices t i))

/-- No index lies in two distinct nodes' child ranges. -/
def uniqueParentB (t : ItemTree) (j : Nat) : Bool :=
  (List.range t.length).all fun i1 =>
    (List.range t.length).all fun i2 =>
      !(decide (j ∈ childIndices t i1) && decide (j ∈ childIndices t i2)) || i1 == i2

/-- Well-formed item tree: the array encodes a tree — contiguous
(inherent in the range encoding), in-bounds, forward-pointing child
ranges that partition the non-root indices (each non-root node has
exactly one parent). -/
def wfTree (t : ItemTree) : Prop :=
  (List.range t.length).all (nodeOkB t) = true
  ∧ (List.range t.length).all (coveredB t) = true
  ∧ (List.range t.length).all (uniqueParentB t) = true

instance (t : ItemTree) : Decidable (wfTree t) := by
  unfold wfTree
  infer_instance

/-- Modelled from the spec: the visit order of a full traversal rooted
at `i` — the node itself (if it is an `Item`; the visitor is invoked
exactly there), then recursively each child subtree in range order.
The fuel only serves termination; `t.length` is always enough because
child indices increase strictly. -/
def visitFrom (t : ItemTree) : Nat → Nat → List Nat
  | 0, _ => []
  | fuel + 1, i =>
    match t[i]? with
    | some (.item cc ci) =>
      i :: ((List.range cc).map (ci + ·)).flatMap (fun c => visitFrom t fuel c)
    | _ => []

/-- The complete visit order of a full traversal started at the root. -/
def visitOrder (t : ItemTree) : List Nat := visitFrom t t.length 0

/-- `Desc t i j`: `j` lies in the subtree rooted at `i` (reflexive,
following child ranges). -/
inductive Desc (t : ItemTree) : Nat → Nat → Prop where
  | refl (i : Nat) : Desc t i i
  | child {i c j : Nat} : c ∈ childIndices t i → Desc t c j → Desc t i j

/-! ### Concrete instances used as witnesses and counterexamples -/

/-- A concrete well-formed tree: root with children `{1, 2}`, node 1
with child `{3}`, node 2 a dynamic placeholder, node 3 a leaf. -/
def c1ex : ItemTree :=
  [.item 2 1, .item 1 3, .dynamicTree 0, .item 0 4]

/-- A trivial arc flattening used to instantiate `arcImpl` in witnesses
(the degenerate-arc theorems hold for every flattening). -/
def c4arcImpl : SvgState → PathArcTo → SvgState := fun s _ => s

/-- A fresh one-event iterator (no transform installed). -/
def c5ex : LyonPathIterator := ⟨[LEvent.begin ⟨0, 0⟩], none⟩

/-- A fresh iterator over an open unit-diagonal path, bounding box
`[0,1] × [0,1]`, no transform installed. -/
def c8ex : LyonPathIterator :=
  ⟨[LEvent.begin ⟨0, 0⟩, LEvent.line ⟨0, 0⟩ ⟨1, 1⟩, LEvent.end' ⟨0, 0⟩ ⟨1, 1⟩ false], none⟩

/-- `Except.isOk` spelled out for the panic-modelling `Except`. -/
def isOkE {ε α : Type} : Except ε α → Bool
  | .ok _ => true
  | .error _ => false

/-! # Theorems -/

/-- **C9.** `Color::from_argb_encoded(0xFF102030).as_rgba_u8()` is
`(0x10, 0x20, 0x30, 0xFF)`, and in general `from_argb_encoded` extracts
alpha from bits 24-31, red from bits 16-23, green from bits 8-15 and
blue from bits 0-7 of the encoded `u32`. -/
theorem c9_from_argb_encoded_extracts_channels :
    (Color.from_argb_encoded 0xFF102030).as_rgba_u8 = (0x10, 0x20, 0x30, 0xFF)
    ∧ ∀ encoded : Nat, encoded < 2 ^ 32 →
        (Color.from_argb_encoded encoded).alpha = encoded / 2 ^ 24
        ∧ (Color.from_argb_encoded encoded).red = encoded / 2 ^ 16 % 2 ^ 8
        ∧ (Color.from_argb_encoded encoded).green = encoded / 2 ^ 8 % 2 ^ 8
        ∧ (Color.from_argb_encoded encoded).blue = encoded % 2 ^ 8 := by
  constructor
  · decide
  · intro encoded h
    refine ⟨?_, ?_, ?_, rfl⟩
    · show encoded >>> 24 % 256 = encoded / 2 ^ 24
      rw [Nat.shiftRight_eq_div_pow]
      exact Nat.mod_eq_of_lt (by omega)
    · show encoded >>> 16 % 256 = encoded / 2 ^ 16 % 2 ^ 8
      rw [Nat.shiftRight_eq_div_pow]
      norm_num
    · show encoded >>> 8 % 256 = encoded / 2 ^ 8 % 2 ^ 8
      rw [Nat.shiftRight_eq_div_pow]
      norm_num

/-- Witness for C9 at the concrete input `0xAABBCCDD`. -/
theorem c9_witness :
    (0xAABBCCDD : Nat) < 2 ^ 32
    ∧ (Color.from_argb_encoded 0xAABBCCDD).alpha = 0xAABBCCDD / 2 ^ 24 := by
  exact ⟨by decide, (c9_from_argb_encoded_extracts_channels.2 0xAABBCCDD (by decide)).1⟩

/-- **C2 counterexample.** The claim says the default `max_width` is
`+infinity`; in the code it is the finite value `f32::MAX`, so the claim
is false. -/
theorem c2_counterexample :
    LayoutInfo.default.max_width ≠ FloatVal.posInf := by
  decide

/-- **C2 (amended).** The default `LayoutInfo` is
`min_width = 0`, `min_height = 0`, and `max_width = max_height = f32::MAX`
(the largest finite `f32`, `(2 - 2⁻²³)·2¹²⁷`) — not `+infinity`. -/
theorem c2_default_layout_info :
    LayoutInfo.default
      = { min_width := .finite 0
          max_width := .finite ((2 - (2 : ℚ)⁻¹ ^ 23) * 2 ^ 127)
          min_height := .finite 0
          max_height := .finite ((2 - (2 : ℚ)⁻¹ ^ 23) * 2 ^ 127) } := by
  have h : f32MaxVal = (2 - (2 : ℚ)⁻¹ ^ 23) * 2 ^ 127 := by norm_num [f32MaxVal]
  simp [LayoutInfo.default, h]

/-- **C3.** `low_level_rendering_primitive` returns `none` iff `cache_ok`
is `false`; when `cache_ok` is `true` it returns the cache entry located
at the stored `cache_index`, for every possible cache content — so it
neither modifies nor interprets `cache_index`. -/
theorem c3_low_level_rendering_primitive_cache_gate {α : Type}
    (self : CachedRenderingData) (cache : Nat → α) :
    (self.low_level_rendering_primitive cache = none ↔ self.cache_ok = false)
    ∧ (self.cache_ok = true →
        self.low_level_rendering_primitive cache = some (cache self.cache_index)) := by
  constructor
  · constructor
    · intro h
      by_contra hok
      have hok' : self.cache_ok = true := by
        cases h' : self.cache_ok
        · exact absurd h' hok
        · rfl
      simp [CachedRenderingData.low_level_rendering_primitive, hok'] at h
    · intro h
      simp [CachedRenderingData.low_level_rendering_primitive, h]
  · intro h
    simp [CachedRenderingData.low_level_rendering_primitive, h]

/-- Witness for C3: a slot with `cache_ok = true` and index 3 over the
identity cache yields entry 3. -/
theorem c3_witness :
    CachedRenderingData.low_level_rendering_primitive ⟨3, true⟩ (fun n => n) = some 3 := by
  exact (c3_low_level_rendering_primitive_cache_gate ⟨3, true⟩ (fun n => n)).2 rfl

/-- **C6.** Each event tag consumes a fixed number of the next
unconsumed coordinates in strict order — `Begin` 1, `Line` 2,
`Quadratic` 3, `Cubic` 4 — while `EndOpen` and `EndClosed` consume none
and instead carry the stored whole-array first/last points (which
`nextEv` also leaves untouched in the successor state). -/
theorem c6_next_consumes_fixed_arity (e : PathEvent) (rest : List PathEvent)
    (cs : List Pt) (f l : Option Pt)
    (hc : consume e ≤ cs.length)
    (hfl : usesFirstLast e = true → f.isSome = true ∧ l.isSome = true) :
    nextEv ⟨e :: rest, cs, f, l⟩
      = .ok (some (mkEv e (cs.take (consume e)) f l,
                   ⟨rest, cs.drop (consume e), f, l⟩)) := by
  cases e with
  | begin =>
    match cs, hc with
    | c1 :: cs', _ => rfl
  | line =>
    match cs, hc with
    | c1 :: c2 :: cs', _ => rfl
  | quadratic =>
    match cs, hc with
    | c1 :: c2 :: c3 :: cs', _ => rfl
  | cubic =>
    match cs, hc with
    | c1 :: c2 :: c3 :: c4 :: cs', _ => rfl
  | endOpen =>
    obtain ⟨hf, hl⟩ := hfl rfl
    obtain ⟨fp, rfl⟩ := Option.isSome_iff_exists.mp hf
    obtain ⟨lp, rfl⟩ := Option.isSome_iff_exists.mp hl
    rfl
  | endClosed =>
    obtain ⟨hf, hl⟩ := hfl rfl
    obtain ⟨fp, rfl⟩ := Option.isSome_iff_exists.mp hf
    obtain ⟨lp, rfl⟩ := Option.isSome_iff_exists.mp hl
    rfl

/-- Witness for C6: a `Line` tag over three pending coordinates consumes
exactly the first two. -/
theorem c6_witness :
    nextEv ⟨[PathEvent.line, PathEvent.endClosed],
            [⟨1, 2⟩, ⟨3, 4⟩, ⟨5, 6⟩], some ⟨1, 2⟩, some ⟨5, 6⟩⟩
      = .ok (some (mkEv PathEvent.line
                     ([(⟨1, 2⟩ : Pt), ⟨3, 4⟩, ⟨5, 6⟩].take (consume PathEvent.line))
                     (some ⟨1, 2⟩) (some ⟨5, 6⟩),
                   ⟨[PathEvent.endClosed],
                    [(⟨1, 2⟩ : Pt), ⟨3, 4⟩, ⟨5, 6⟩].drop (consume PathEvent.line),
                    some ⟨1, 2⟩, some ⟨5, 6⟩⟩)) :=
  c6_next_consumes_fixed_arity PathEvent.line [PathEvent.endClosed]
    [⟨1, 2⟩, ⟨3, 4⟩, ⟨5, 6⟩] (some ⟨1, 2⟩) (some ⟨5, 6⟩) (by decide) (by decide)

/-- **C7.** Converting the `Elements`-form path
`[LineTo(0,0), LineTo(10,0), LineTo(10,10), Close]` to the low-level
event iterator yields exactly `[Begin, Line, Line, EndClosed]` with the
claimed coordinates, for every arc flattening (no arc occurs). -/
theorem c7_elements_round_trip (arcImpl : SvgState → PathArcTo → SvgState) :
    iterLy (pathDataIterElements arcImpl
        [PathElement.lineTo ⟨0, 0⟩, PathElement.lineTo ⟨10, 0⟩,
         PathElement.lineTo ⟨10, 10⟩, PathElement.close])
      = [LEvent.begin ⟨0, 0⟩, LEvent.line ⟨0, 0⟩ ⟨10, 0⟩,
         LEvent.line ⟨10, 0⟩ ⟨10, 10⟩, LEvent.end' ⟨0, 0⟩ ⟨10, 10⟩ true] := rfl

/-- **C4.** An `ArcTo` whose radii are both zero, or whose target equals
the current cursor position, builds exactly as a `LineTo` to the same
target point (in any surrounding element sequence and for any
flattening of non-degenerate arcs); with an open subpath it emits the
single straight-line event from the cursor to the target, whose
coordinates are the input coordinates passed through unchanged. -/
theorem c4_degenerate_arc_is_line (arcImpl : SvgState → PathArcTo → SvgState)
    (pre suf : List PathElement) (a : PathArcTo)
    (hdeg : (a.radius_x = 0 ∧ a.radius_y = 0)
            ∨ Pt.mk a.x a.y = (pre.foldl (stepEl arcImpl) initSvg).current) :
    buildPathWith arcImpl (pre ++ PathElement.arcTo a :: suf)
      = buildPathWith arcImpl (pre ++ PathElement.lineTo ⟨a.x, a.y⟩ :: suf)
    ∧ ((pre.foldl (stepEl arcImpl) initSvg).firstPt.isSome = true →
        (stepEl arcImpl (pre.foldl (stepEl arcImpl) initSvg) (PathElement.arcTo a)).events
          = (pre.foldl (stepEl arcImpl) initSvg).events
            ++ [LEvent.line (pre.foldl (stepEl arcImpl) initSvg).current ⟨a.x, a.y⟩]) := by
  set s := pre.foldl (stepEl arcImpl) initSvg with hs
  have hstraight : isStraightLine ⟨a.radius_x, a.radius_y⟩ s.current ⟨a.x, a.y⟩ = true := by
    rcases hdeg with ⟨hx, hy⟩ | heq
    · have h0 : (0 : ℚ) ≤ epsF32 := by norm_num [epsF32]
      simp [isStraightLine, hx]
      exact Or.inl (Or.inl h0)
    · simp [isStraightLine, ← heq]
  have hstep : stepEl arcImpl s (PathElement.arcTo a) = lineToM s ⟨a.x, a.y⟩ := by
    simp [stepEl, hstraight]
  refine ⟨?_, ?_⟩
  · unfold buildPathWith
    rw [List.foldl_append, List.foldl_append, List.foldl_cons, List.foldl_cons,
        ← hs, hstep]
    rfl
  · intro hfp
    rw [hstep]
    obtain ⟨fp, hfp'⟩ := Option.isSome_iff_exists.mp hfp
    simp [lineToM, hfp']

/-- Witness for C4: a zero-radius arc after a line builds like a line. -/
theorem c4_witness :
    buildPathWith c4arcImpl
        ([PathElement.lineTo ⟨1, 2⟩]
          ++ PathElement.arcTo ⟨7, 8, 0, 0, 0, false, false⟩ :: [PathElement.close])
      = buildPathWith c4arcImpl
          ([PathElement.lineTo ⟨1, 2⟩]
            ++ PathElement.lineTo ⟨7, 8⟩ :: [PathElement.close]) :=
  (c4_degenerate_arc_is_line c4arcImpl [PathElement.lineTo ⟨1, 2⟩] [PathElement.close]
      ⟨7, 8, 0, 0, 0, false, false⟩ (Or.inl ⟨rfl, rfl⟩)).1

/-- **C5.** Starting from a fresh iterator (no transform installed),
`fitted(width, height)` installs the fitting transform iff
`width > 0 ∨ height > 0`; when both are non-positive the iterator is
returned unchanged and yields exactly the untransformed event
sequence. -/
theorem c5_fitted_installs_transform_iff (it : LyonPathIterator) (w h : ℚ)
    (htr : it.transform = none) :
    ((0 < w ∨ 0 < h) →
      (fitted it w h).transform
        = some (fitRectangle (boundingRect it.baseEvents) (rectFromSize w h)))
    ∧ (¬(0 < w ∨ 0 < h) →
        fitted it w h = it ∧ iterLy (fitted it w h) = it.baseEvents) := by
  have hit : iterLy it = it.baseEvents := by simp [iterLy, htr]
  refine ⟨?_, ?_⟩
  · intro hc
    unfold fitted
    rw [if_pos hc, hit]
  · intro hc
    have h1 : fitted it w h = it := by
      unfold fitted
      rw [if_neg hc]
    exact ⟨h1, by rw [h1, hit]⟩

/-- Witness for C5: with `w = -1`, `h = 0` nothing is installed and the
iterator is the identity pass-through. -/
theorem c5_witness :
    fitted c5ex (-1) 0 = c5ex ∧ iterLy (fitted c5ex (-1) 0) = c5ex.baseEvents :=
  (c5_fitted_installs_transform_iff c5ex (-1) 0 rfl).2 (by decide)

theorem isOkE_map {ε α β : Type} (g : α → β) (x : Except ε α) :
    isOkE (x.map g) = isOkE x := by
  cases x <;> rfl

theorem totalConsume_cons (e : PathEvent) (rest : List PathEvent) :
    totalConsume (e :: rest) = consume e + totalConsume rest := by
  simp [totalConsume]

/-- Full iteration succeeds exactly when the prefix-consumption budget
and the first/last availability hold, for any stored first/last. -/
theorem runAll_isOk_iff (evs : List PathEvent) : ∀ (cs : List Pt) (f l : Option Pt),
    isOkE (runAll evs.length ⟨evs, cs, f, l⟩) = true
      ↔ totalConsume evs ≤ cs.length
        ∧ (evs.any usesFirstLast = true → f.isSome = true ∧ l.isSome = true) := by
  induction evs with
  | nil =>
    intro cs f l
    simp [runAll, isOkE, totalConsume]
  | cons e rest ih =>
    intro cs f l
    rw [List.length_cons]
    cases e with
    | begin =>
      cases cs with
      | nil =>
        simp [runAll, nextEv, isOkE, totalConsume_cons, consume]
      | cons c1 cs' =>
        have hstep : runAll (rest.length + 1) ⟨PathEvent.begin :: rest, c1 :: cs', f, l⟩
            = (runAll rest.length ⟨rest, cs', f, l⟩).map (LEvent.begin c1 :: ·) := rfl
        rw [hstep, isOkE_map, ih cs' f l, totalConsume_cons]
        simp [consume, usesFirstLast]
        omega
    | line =>
      match cs with
      | [] => simp [runAll, nextEv, isOkE, totalConsume_cons, consume]
      | [c1] =>
        simp [runAll, nextEv, isOkE, totalConsume_cons, consume]
        intro hcontra
        exact absurd hcontra (by omega)
      | c1 :: c2 :: cs' =>
        have hstep : runAll (rest.length + 1) ⟨PathEvent.line :: rest, c1 :: c2 :: cs', f, l⟩
            = (runAll rest.length ⟨rest, cs', f, l⟩).map (LEvent.line c1 c2 :: ·) := rfl
        rw [hstep, isOkE_map, ih cs' f l, totalConsume_cons]
        simp [consume, usesFirstLast]
        omega
    | quadratic =>
      match cs with
      | [] => simp [runAll, nextEv, isOkE, totalConsume_cons, consume]
      | [c1] =>
        simp [runAll, nextEv, isOkE, totalConsume_cons, consume]
        intro hcontra
        exact absurd hcontra (by omega)
      | [c1, c2] =>
        simp [runAll, nextEv, isOkE, totalConsume_cons, consume]
        intro hcontra
        exact absurd hcontra (by omega)
      | c1 :: c2 :: c3 :: cs' =>
        have hstep : runAll (rest.length + 1)
              ⟨PathEvent.quadratic :: rest, c1 :: c2 :: c3 :: cs', f, l⟩
            = (runAll rest.length ⟨rest, cs', f, l⟩).map (LEvent.quadratic c1 c2 c3 :: ·) := rfl
        rw [hstep, isOkE_map, ih cs' f l, totalConsume_cons]
        simp [consume, usesFirstLast]
        omega
    | cubic =>
      match cs with
      | [] => simp [runAll, nextEv, isOkE, totalConsume_cons, consume]
      | [c1] =>
        simp [runAll, nextEv, isOkE, totalConsume_cons, consume]
        intro hcontra
        exact absurd hcontra (by omega)
      | [c1, c2] =>
        simp [runAll, nextEv, isOkE, totalConsume_cons, consume]
        intro hcontra
        exact absurd hcontra (by omega)
      | [c1, c2, c3] =>
        simp [runAll, nextEv, isOkE, totalConsume_cons, consume]
        intro hcontra
        exact absurd hcontra (by omega)
      | c1 :: c2 :: c3 :: c4 :: cs' =>
        have hstep : runAll (rest.length + 1)
              ⟨PathEvent.cubic :: rest, c1 :: c2 :: c3 :: c4 :: cs', f, l⟩
            = (runAll rest.length ⟨rest, cs', f, l⟩).map (LEvent.cubic c1 c2 c3 c4 :: ·) := rfl
        rw [hstep, isOkE_map, ih cs' f l, totalConsume_cons]
        simp [consume, usesFirstLast]
        omega
    | endOpen =>
      match f, l with
      | some fp, some lp =>
        have hstep : runAll (rest.length + 1)
              ⟨PathEvent.endOpen :: rest, cs, some fp, some lp⟩
            = (runAll rest.length ⟨rest, cs, some fp, some lp⟩).map
                (LEvent.end' fp lp false :: ·) := rfl
        rw [hstep, isOkE_map, ih cs (some fp) (some lp), totalConsume_cons]
        simp [consume, usesFirstLast]
      | none, _ =>
        simp [runAll, nextEv, isOkE, totalConsume_cons, consume, usesFirstLast]
      | some _, none =>
        simp [runAll, nextEv, isOkE, totalConsume_cons, consume, usesFirstLast]
    | endClosed =>
      match f, l with
      | some fp, some lp =>
        have hstep : runAll (rest.length + 1)
              ⟨PathEvent.endClosed :: rest, cs, some fp, some lp⟩
            = (runAll rest.length ⟨rest, cs, some fp, some lp⟩).map
                (LEvent.end' fp lp true :: ·) := rfl
        rw [hstep, isOkE_map, ih cs (some fp) (some lp), totalConsume_cons]
        simp [consume, usesFirstLast]
      | none, _ =>
        simp [runAll, nextEv, isOkE, totalConsume_cons, consume, usesFirstLast]
      | some _, none =>
        simp [runAll, nextEv, isOkE, totalConsume_cons, consume, usesFirstLast]

/-- **C10.** Iterating the `Events` form never reaches a panic (unwrap)
branch iff the coordinate sequence provides, in order, the per-tag
arity (1/2/3/4 for Begin/Line/Quadratic/Cubic) and is non-empty
whenever an end event occurs; data violating this makes the iteration
panic rather than degrade. -/
theorem c10_events_iteration_total_iff_wf (evs : List PathEvent) (cs : List Pt) :
    isOkE (iterAllEvents evs cs) = true ↔ wfEvents evs cs := by
  unfold iterAllEvents wfEvents
  rw [runAll_isOk_iff]
  have hhead : cs.head?.isSome = true ↔ cs ≠ [] := by cases cs <;> simp
  have hlast : cs.getLast?.isSome = true ↔ cs ≠ [] := by
    cases cs with
    | nil => simp
    | cons a l => simp [List.getLast?_isSome]
  constructor
  · rintro ⟨h1, h2⟩
    exact ⟨h1, fun ha => hhead.mp (h2 ha).1⟩
  · rintro ⟨h1, h2⟩
    exact ⟨h1, fun ha => ⟨hhead.mpr (h2 ha), hlast.mpr (h2 ha)⟩⟩

theorem eventPts_applyEv (T : Transform) (e : LEvent) :
    eventPts (applyEv T e) = (eventPts e).map (applyPt T) := by
  cases e <;> rfl

theorem flatMap_eventPts_map (T : Transform) (evs : List LEvent) :
    (evs.map (applyEv T)).flatMap eventPts = (evs.flatMap eventPts).map (applyPt T) := by
  induction evs with
  | nil => rfl
  | cons e evs ih => simp [List.flatMap_cons, eventPts_applyEv, ih]

theorem min_affine (s t a b : ℚ) (hs : 0 ≤ s) :
    min (s * a + t) (s * b + t) = s * min a b + t := by
  rcases le_total a b with hab | hab
  · rw [min_eq_left hab,
      min_eq_left (add_le_add_right (mul_le_mul_of_nonneg_left hab hs) t)]
  · rw [min_eq_right hab,
      min_eq_right (add_le_add_right (mul_le_mul_of_nonneg_left hab hs) t)]

theorem max_affine (s t a b : ℚ) (hs : 0 ≤ s) :
    max (s * a + t) (s * b + t) = s * max a b + t := by
  rcases le_total a b with hab | hab
  · rw [max_eq_right hab,
      max_eq_right (add_le_add_right (mul_le_mul_of_nonneg_left hab hs) t)]
  · rw [max_eq_left hab,
      max_eq_left (add_le_add_right (mul_le_mul_of_nonneg_left hab hs) t)]

theorem foldl_min_affine (s t : ℚ) (hs : 0 ≤ s) (l : List ℚ) : ∀ a : ℚ,
    (l.map (fun v => s * v + t)).foldl min (s * a + t) = s * l.foldl min a + t := by
  induction l with
  | nil => intro a; rfl
  | cons b l ih =>
    intro a
    simp only [List.map_cons, List.foldl_cons]
    rw [min_affine s t a b hs]
    exact ih (min a b)

theorem foldl_max_affine (s t : ℚ) (hs : 0 ≤ s) (l : List ℚ) : ∀ a : ℚ,
    (l.map (fun v => s * v + t)).foldl max (s * a + t) = s * l.foldl max a + t := by
  induction l with
  | nil => intro a; rfl
  | cons b l ih =>
    intro a
    simp only [List.map_cons, List.foldl_cons]
    rw [max_affine s t a b hs]
    exact ih (max a b)

theorem boundingRect_eq_of_pts (evs : List LEvent) (p : Pt) (ps : List Pt)
    (h : evs.flatMap eventPts = p :: ps) :
    boundingRect evs
      = ⟨(ps.map Pt.x).foldl min p.x,
         (ps.map Pt.y).foldl min p.y,
         (ps.map Pt.x).foldl max p.x - (ps.map Pt.x).foldl min p.x,
         (ps.map Pt.y).foldl max p.y - (ps.map Pt.y).foldl min p.y⟩ := by
  unfold boundingRect
  rw [h]

/-- The point-hull bounding box commutes with a nonnegative
scale-and-translate transform. -/
theorem boundingRect_map (T : Transform) (hsx : 0 ≤ T.sx) (hsy : 0 ≤ T.sy)
    (evs : List LEvent) (p : Pt) (ps : List Pt)
    (hpts : evs.flatMap eventPts = p :: ps) :
    boundingRect (evs.map (applyEv T))
      = ⟨T.sx * (boundingRect evs).x + T.tx,
         T.sy * (boundingRect evs).y + T.ty,
         T.sx * (boundingRect evs).w,
         T.sy * (boundingRect evs).h⟩ := by
  have hmapped : (evs.map (applyEv T)).flatMap eventPts
      = applyPt T p :: ps.map (applyPt T) := by
    rw [flatMap_eventPts_map, hpts]
    rfl
  rw [boundingRect_eq_of_pts _ _ _ hmapped, boundingRect_eq_of_pts _ _ _ hpts]
  have hx : (ps.map (applyPt T)).map Pt.x
      = (ps.map Pt.x).map (fun v => T.sx * v + T.tx) := by
    rw [List.map_map, List.map_map]
    rfl
  have hy : (ps.map (applyPt T)).map Pt.y
      = (ps.map Pt.y).map (fun v => T.sy * v + T.ty) := by
    rw [List.map_map, List.map_map]
    rfl
  have hpx : (applyPt T p).x = T.sx * p.x + T.tx := rfl
  have hpy : (applyPt T p).y = T.sy * p.y + T.ty := rfl
  rw [hx, hy, hpx, hpy,
    foldl_min_affine T.sx T.tx hsx (ps.map Pt.x) p.x,
    foldl_max_affine T.sx T.tx hsx (ps.map Pt.x) p.x,
    foldl_min_affine T.sy T.ty hsy (ps.map Pt.y) p.y,
    foldl_max_affine T.sy T.ty hsy (ps.map Pt.y) p.y]
  congr 1 <;> ring

theorem applyEv_one (e : LEvent) : applyEv ⟨1, 1, 0, 0⟩ e = e := by
  cases e <;> simp [applyEv, applyPt]

theorem map_applyEv_one (evs : List LEvent) :
    evs.map (applyEv ⟨1, 1, 0, 0⟩) = evs := by
  induction evs with
  | nil => rfl
  | cons e l ih => simp [applyEv_one, ih]

/-- `fitted` in the installing branch. -/
theorem fitted_pos (it : LyonPathIterator) (w h : ℚ) (hw : 0 < w) :
    fitted it w h
      = ⟨it.baseEvents,
         some (fitRectangle (boundingRect (iterLy it)) (rectFromSize w h))⟩ := by
  unfold fitted
  rw [if_pos (Or.inl hw)]

/-- The bounding box of the concrete unit-diagonal path. -/
theorem c8ex_bound : boundingRect c8ex.baseEvents = ⟨0, 0, 1, 1⟩ := by
  rw [boundingRect_eq_of_pts c8ex.baseEvents ⟨0, 0⟩
      [⟨0, 0⟩, ⟨1, 1⟩, ⟨0, 0⟩, ⟨1, 1⟩] rfl]
  norm_num [min_def, max_def]

/-- The first `fitted(2, 2)` on the unit-diagonal path installs the
scale-by-2 transform. -/
theorem c8ex_fit1 : fitted c8ex 2 2 = ⟨c8ex.baseEvents, some ⟨2, 2, 0, 0⟩⟩ := by
  rw [fitted_pos c8ex 2 2 (by norm_num)]
  have hiter : iterLy c8ex = c8ex.baseEvents := rfl
  rw [hiter, c8ex_bound]
  show (⟨_, some (⟨min (2 / 1) (2 / 1), min (2 / 1) (2 / 1),
      0 - min (2 / 1) (2 / 1) * 0, 0 - min (2 / 1) (2 / 1) * 0⟩ : Transform)⟩
    : LyonPathIterator) = _
  norm_num

/-- The events emitted after one `fitted(2, 2)`: the path scaled by 2. -/
theorem c8ex_iter1 :
    iterLy (fitted c8ex 2 2)
      = [LEvent.begin ⟨0, 0⟩, LEvent.line ⟨0, 0⟩ ⟨2, 2⟩,
         LEvent.end' ⟨0, 0⟩ ⟨2, 2⟩ false] := by
  rw [c8ex_fit1]
  show c8ex.baseEvents.map (applyEv ⟨2, 2, 0, 0⟩) = _
  norm_num [c8ex, applyEv, applyPt]

/-- After the second `fitted(2, 2)` the recomputed transform is the
identity and the original events come back. -/
theorem c8ex_fit2 :
    fitted (fitted c8ex 2 2) 2 2 = ⟨c8ex.baseEvents, some ⟨1, 1, 0, 0⟩⟩ := by
  rw [fitted_pos (fitted c8ex 2 2) 2 2 (by norm_num), c8ex_iter1,
    boundingRect_eq_of_pts
      [LEvent.begin ⟨0, 0⟩, LEvent.line ⟨0, 0⟩ ⟨2, 2⟩, LEvent.end' ⟨0, 0⟩ ⟨2, 2⟩ false]
      ⟨0, 0⟩ [⟨0, 0⟩, ⟨2, 2⟩, ⟨0, 0⟩, ⟨2, 2⟩] rfl, c8ex_fit1]
  show (⟨c8ex.baseEvents, some (fitRectangle ⟨0, (⟨0, 0⟩ : Pt).y, _, _⟩ _)⟩
    : LyonPathIterator) = _
  norm_num [fitRectangle, rectFromSize, min_def, max_def]

/-- **C8 counterexample.** Re-applying `fitted(2, 2)` to an already
fitted iterator over the unit-diagonal path changes the emitted event
sequence (it reverts to the untransformed events), so the claim as
stated is false. -/
theorem c8_counterexample :
    iterLy (fitted (fitted c8ex 2 2) 2 2) ≠ iterLy (fitted c8ex 2 2) := by
  rw [c8ex_fit2, c8ex_iter1]
  have h2 : iterLy (⟨c8ex.baseEvents, some ⟨1, 1, 0, 0⟩⟩ : LyonPathIterator)
      = c8ex.baseEvents := map_applyEv_one c8ex.baseEvents
  rw [h2]
  norm_num [c8ex]

/-- **C8 (amended).** A second `fitted(w, h)` replaces (not composes)
the transform with the fit of the already-fitted bounding box into the
target; since that box already exactly fits, the recomputed transform
is the identity, and the twice-fitted iterator emits the original,
untransformed event sequence (in particular it does not keep
shrinking).  Stated for fresh iterators over non-degenerate curve-free
paths and positive targets. -/
theorem c8_fitted_twice_is_identity (it : LyonPathIterator) (w h : ℚ)
    (htr : it.transform = none) (hw : 0 < w) (hh : 0 < h)
    (_hnc : it.baseEvents.all (fun e => !isCurveEv e) = true)
    (hbw : 0 < (boundingRect it.baseEvents).w)
    (hbh : 0 < (boundingRect it.baseEvents).h) :
    (fitted (fitted it w h) w h).transform = some ⟨1, 1, 0, 0⟩
    ∧ iterLy (fitted (fitted it w h) w h) = it.baseEvents := by
  have hit : iterLy it = it.baseEvents := by simp [iterLy, htr]
  have hne : it.baseEvents ≠ [] := by
    intro h0
    rw [h0] at hbw
    revert hbw
    decide
  obtain ⟨p, ps, hpts⟩ : ∃ p ps, it.baseEvents.flatMap eventPts = p :: ps := by
    cases hb : it.baseEvents with
    | nil => exact absurd hb hne
    | cons e l =>
      cases e <;>
        · rw [List.flatMap_cons]
          exact ⟨_, _, rfl⟩
  set B := boundingRect it.baseEvents with hB
  set s := min (w / B.w) (h / B.h) with hsdef
  have hs : 0 < s := lt_min (div_pos hw hbw) (div_pos hh hbh)
  have hT1 : fitted it w h
      = ⟨it.baseEvents, some ⟨s, s, 0 - s * B.x, 0 - s * B.y⟩⟩ := by
    rw [fitted_pos it w h hw, hit]
    rfl
  have hiter1 : iterLy (fitted it w h)
      = it.baseEvents.map (applyEv ⟨s, s, 0 - s * B.x, 0 - s * B.y⟩) := by
    rw [hT1]
    rfl
  have hB1 : boundingRect (iterLy (fitted it w h)) = ⟨0, 0, s * B.w, s * B.h⟩ := by
    rw [hiter1, boundingRect_map _ (le_of_lt hs) (le_of_lt hs) _ p ps hpts]
    congr 1 <;> ring
  have hs2 : min (w / (s * B.w)) (h / (s * B.h)) = 1 := by
    rw [div_mul_eq_div_div_swap, div_mul_eq_div_div_swap,
      min_div_div_right (le_of_lt hs), ← hsdef]
    exact div_self (ne_of_gt hs)
  have hfitB1 : fitRectangle ⟨0, 0, s * B.w, s * B.h⟩ (rectFromSize w h)
      = ⟨1, 1, 0, 0⟩ := by
    show (⟨min (w / (s * B.w)) (h / (s * B.h)),
          min (w / (s * B.w)) (h / (s * B.h)),
          0 - min (w / (s * B.w)) (h / (s * B.h)) * 0,
          0 - min (w / (s * B.w)) (h / (s * B.h)) * 0⟩ : Transform)
        = ⟨1, 1, 0, 0⟩
    rw [hs2]
    norm_num
  have hfit2 : fitted (fitted it w h) w h = ⟨it.baseEvents, some ⟨1, 1, 0, 0⟩⟩ := by
    rw [fitted_pos (fitted it w h) w h hw, hB1, hfitB1, hT1]
  refine ⟨?_, ?_⟩
  · rw [hfit2]
  · rw [hfit2]
    show it.baseEvents.map (applyEv ⟨1, 1, 0, 0⟩) = it.baseEvents
    exact map_applyEv_one it.baseEvents

/-- Witness for C8 (amended) at the unit-diagonal path and target
`(2, 2)`. -/
theorem c8_witness :
    (fitted (fitted c8ex 2 2) 2 2).transform = some ⟨1, 1, 0, 0⟩
    ∧ iterLy (fitted (fitted c8ex 2 2) 2 2) = c8ex.baseEvents :=
  c8_fitted_twice_is_identity c8ex 2 2 rfl (by norm_num) (by norm_num)
    (by decide) (by rw [c8ex_bound]; norm_num) (by rw [c8ex_bound]; norm_num)

theorem getElem?_some_lt {t : ItemTree} {i : Nat} {n : ItemTreeNode}
    (h : t[i]? = some n) : i < t.length := by
  rcases lt_or_ge i t.length with h' | h'
  · exact h'
  · rw [List.getElem?_eq_none h'] at h
    cases h

theorem mem_childIndices {t : ItemTree} {i j : Nat} (h : j ∈ childIndices t i) :
    ∃ cc ci, t[i]? = some (.item cc ci) ∧ 0 < cc ∧ ci ≤ j ∧ j < ci + cc := by
  unfold childIndices at h
  cases hti : t[i]? with
  | none =>
    rw [hti] at h
    simp at h
  | some node =>
    cases node with
    | item cc ci =>
      rw [hti] at h
      simp only [List.mem_map, List.mem_range] at h
      obtain ⟨k, hk, hkj⟩ := h
      exact ⟨cc, ci, rfl, by omega, by omega, by omega⟩
    | dynamicTree idx =>
      rw [hti] at h
      simp at h

theorem wf_nodeOk {t : ItemTree} (hwf : wfTree t) {i cc ci : Nat}
    (h : t[i]? = some (.item cc ci)) :
    (0 < cc → i < ci) ∧ ci + cc ≤ t.length := by
  have hi : i < t.length := getElem?_some_lt h
  have hok := List.all_eq_true.mp hwf.1 i (List.mem_range.mpr hi)
  unfold nodeOkB at hok
  rw [h] at hok
  simp only [Bool.and_eq_true, Bool.or_eq_true, beq_iff_eq, decide_eq_true_eq] at hok
  refine ⟨?_, hok.2⟩
  intro h0
  rcases hok.1 with h1 | h1
  · omega
  · exact h1

theorem wf_child_forward {t : ItemTree} (hwf : wfTree t) {i j : Nat}
    (h : j ∈ childIndices t i) : i < j := by
  obtain ⟨cc, ci, hti, hcc, hle, hlt⟩ := mem_childIndices h
  have := (wf_nodeOk hwf hti).1 hcc
  omega

theorem wf_child_lt_length {t : ItemTree} (hwf : wfTree t) {i j : Nat}
    (h : j ∈ childIndices t i) : j < t.length := by
  obtain ⟨cc, ci, hti, hcc, hle, hlt⟩ := mem_childIndices h
  have := (wf_nodeOk hwf hti).2
  omega

theorem wf_unique_parent {t : ItemTree} (hwf : wfTree t) {i1 i2 j : Nat}
    (h1 : j ∈ childIndices t i1) (h2 : j ∈ childIndices t i2) : i1 = i2 := by
  obtain ⟨cc1, ci1, hti1, _, _, _⟩ := mem_childIndices h1
  obtain ⟨cc2, ci2, hti2, _, _, _⟩ := mem_childIndices h2
  have hi1 : i1 < t.length := getElem?_some_lt hti1
  have hi2 : i2 < t.length := getElem?_some_lt hti2
  have hj : j < t.length := wf_child_lt_length hwf h1
  have hu := List.all_eq_true.mp hwf.2.2 j (List.mem_range.mpr hj)
  unfold uniqueParentB at hu
  have hu1 := List.all_eq_true.mp hu i1 (List.mem_range.mpr hi1)
  have hu2 := List.all_eq_true.mp hu1 i2 (List.mem_range.mpr hi2)
  rw [decide_eq_true h1, decide_eq_true h2] at hu2
  simp at hu2
  exact hu2

theorem wf_covered {t : ItemTree} (hwf : wfTree t) {j : Nat}
    (h0 : 0 < j) (hj : j < t.length) : ∃ i, j ∈ childIndices t i := by
  have hc := List.all_eq_true.mp hwf.2.1 j (List.mem_range.mpr hj)
  unfold coveredB at hc
  simp only [Bool.or_eq_true, beq_iff_eq, List.any_eq_true, List.mem_range,
    decide_eq_true_eq] at hc
  rcases hc with hc | ⟨i, _, hi⟩
  · omega
  · exact ⟨i, hi⟩

theorem Desc.le_of_wf {t : ItemTree} (hwf : wfTree t) {i j : Nat}
    (h : Desc t i j) : i ≤ j := by
  induction h with
  | refl => exact Nat.le_refl _
  | child hc _ ih => exact Nat.le_of_lt (Nat.lt_of_lt_of_le (wf_child_forward hwf hc) ih)

theorem Desc.trans' {t : ItemTree} {i j k : Nat} (h1 : Desc t i j) :
    Desc t j k → Desc t i k := by
  induction h1 with
  | refl => exact id
  | child hc _ ih => exact fun h2 => Desc.child hc (ih h2)

theorem desc_lastStep {t : ItemTree} {a b : Nat} (h : Desc t a b) :
    a ≠ b → ∃ e, Desc t a e ∧ b ∈ childIndices t e := by
  induction h with
  | refl => exact fun hne => absurd rfl hne
  | child hc hd ih =>
    rename_i i c j
    intro _
    by_cases hcb : c = j
    · subst hcb
      exact ⟨i, Desc.refl i, hc⟩
    · obtain ⟨e, he, hbe⟩ := ih hcb
      exact ⟨e, Desc.child hc he, hbe⟩

theorem desc_total {t : ItemTree} (hwf : wfTree t) {c1 c2 j : Nat}
    (h1 : Desc t c1 j) : Desc t c2 j → Desc t c1 c2 ∨ Desc t c2 c1 := by
  induction h1 with
  | refl => exact fun h2 => Or.inr h2
  | child hc hd ih =>
    rename_i i c j'
    intro h2
    rcases ih h2 with hcase | hcase
    · exact Or.inl (Desc.child hc hcase)
    · by_cases hceq : c2 = c
      · subst hceq
        exact Or.inl (Desc.child hc (Desc.refl _))
      · obtain ⟨e, he, hce⟩ := desc_lastStep hcase hceq
        have hei : e = i := wf_unique_parent hwf hce hc
        subst hei
        exact Or.inr he

theorem wf_child_desc_unique {t : ItemTree} (hwf : wfTree t) {i c1 c2 j : Nat}
    (hc1 : c1 ∈ childIndices t i) (hc2 : c2 ∈ childIndices t i)
    (h1 : Desc t c1 j) (h2 : Desc t c2 j) : c1 = c2 := by
  by_contra hne
  rcases desc_total hwf h1 h2 with hd | hd
  · obtain ⟨e, he, hce⟩ := desc_lastStep hd hne
    have hei : e = i := wf_unique_parent hwf hce hc2
    subst hei
    have hle := Desc.le_of_wf hwf he
    have hlt := wf_child_forward hwf hc1
    omega
  · obtain ⟨e, he, hce⟩ := desc_lastStep hd (Ne.symm hne)
    have hei : e = i := wf_unique_parent hwf hce hc1
    subst hei
    have hle := Desc.le_of_wf hwf he
    have hlt := wf_child_forward hwf hc2
    omega

theorem desc_root {t : ItemTree} (hwf : wfTree t) : ∀ j, j < t.length → Desc t 0 j := by
  intro j
  induction j using Nat.strong_induction_on with
  | _ j ih =>
    intro hj
    rcases Nat.eq_zero_or_pos j with rfl | h0
    · exact Desc.refl 0
    · obtain ⟨i, hi⟩ := wf_covered hwf h0 hj
      have hij : i < j := wf_child_forward hwf hi
      have hil : i < t.length := by omega
      exact Desc.trans' (ih i hij hil) (Desc.child hi (Desc.refl _))

theorem isItemAt_lt {t : ItemTree} {j : Nat} (h : isItemAt t j = true) :
    j < t.length := by
  unfold isItemAt at h
  cases hj : t[j]? with
  | none =>
    rw [hj] at h
    simp at h
  | some n => exact getElem?_some_lt hj

theorem isItemAt_of_getElem {t : ItemTree} {i cc ci : Nat}
    (h : t[i]? = some (.item cc ci)) : isItemAt t i = true := by
  unfold isItemAt
  rw [h]

theorem childIndices_of_getElem {t : ItemTree} {i cc ci : Nat}
    (h : t[i]? = some (.item cc ci)) :
    childIndices t i = (List.range cc).map (ci + ·) := by
  unfold childIndices
  rw [h]

theorem childIndices_empty_of_not_item {t : ItemTree} {i : Nat}
    (h : isItemAt t i = false) : childIndices t i = [] := by
  unfold isItemAt at h
  unfold childIndices
  cases hti : t[i]? with
  | none => rfl
  | some node =>
    cases node with
    | item cc ci =>
      rw [hti] at h
      simp at h
    | dynamicTree idx => rfl

theorem childIndices_nodup (t : ItemTree) (i : Nat) : (childIndices t i).Nodup := by
  unfold childIndices
  cases hti : t[i]? with
  | none => exact List.nodup_nil
  | some node =>
    cases node with
    | item cc ci =>
      exact (List.nodup_range cc).map (fun a b hab => by omega)
    | dynamicTree idx => exact List.nodup_nil

theorem visitFrom_zero (t : ItemTree) (i : Nat) : visitFrom t 0 i = [] := rfl

theorem visitFrom_succ_item {t : ItemTree} {i cc ci : Nat} (fuel : Nat)
    (h : t[i]? = some (.item cc ci)) :
    visitFrom t (fuel + 1) i
      = i :: ((List.range cc).map (ci + ·)).flatMap (fun c => visitFrom t fuel c) := by
  rw [visitFrom, h]

theorem visitFrom_succ_not_item {t : ItemTree} {i : Nat} (fuel : Nat)
    (h : isItemAt t i = false) : visitFrom t (fuel + 1) i = [] := by
  unfold isItemAt at h
  unfold visitFrom
  cases hti : t[i]? with
  | none => rfl
  | some node =>
    cases node with
    | item cc ci =>
      rw [hti] at h
      simp at h
    | dynamicTree idx => rfl

theorem count_flatMap_nat (f : Nat → List Nat) (l : List Nat) (j : Nat) :
    (l.flatMap f).count j = (l.map (fun c => (f c).count j)).sum := by
  induction l with
  | nil => rfl
  | cons a l ih => simp [List.flatMap_cons, List.count_append, ih]

theorem sum_map_eq_zero {l : List Nat} {f : Nat → Nat} (h : ∀ c ∈ l, f c = 0) :
    (l.map f).sum = 0 := by
  induction l with
  | nil => rfl
  | cons a l ih =>
    simp only [List.map_cons, List.sum_cons, h a (List.mem_cons_self _ _),
      ih (fun c hc => h c (List.mem_cons_of_mem _ hc)), Nat.add_zero]

theorem sum_map_eq_one (f : Nat → Nat) (c : Nat) : ∀ l : List Nat, l.Nodup →
    c ∈ l → f c = 1 → (∀ x ∈ l, x ≠ c → f x = 0) → (l.map f).sum = 1 := by
  intro l
  induction l with
  | nil =>
    intro _ hc
    cases hc
  | cons a l ih =>
    intro hnd hc h1 h0
    rcases List.mem_cons.mp hc with rfl | hcl
    · have hrest : ∀ x ∈ l, f x = 0 := by
        intro x hx
        refine h0 x (List.mem_cons_of_mem _ hx) ?_
        intro hxeq
        subst hxeq
        exact (List.nodup_cons.mp hnd).1 hx
      simp [h1, sum_map_eq_zero hrest]
    · have hane : a ≠ c := by
        intro he
        exact (List.nodup_cons.mp hnd).1 (he ▸ hcl)
      have ht := ih (List.nodup_cons.mp hnd).2 hcl h1
        (fun x hx hxc => h0 x (List.mem_cons_of_mem _ hx) hxc)
      simp [h0 a (List.mem_cons_self _ _) hane, ht]

theorem count_cons_nat (a b : Nat) (l : List Nat) :
    (b :: l).count a = l.count a + if b = a then 1 else 0 := by
  rw [List.count_cons]
  congr 1
  simp [beq_iff_eq]

/-- Core counting invariant of the traversal: within fuel bounds the
subtree visit list contains an index `j` once if `j` is an `Item` node
of the subtree, and not at all otherwise. -/
theorem visit_count (t : ItemTree) (hwf : wfTree t) : ∀ fuel i,
    t.length ≤ i + fuel → ∀ j,
    ((Desc t i j ∧ isItemAt t j = true) → (visitFrom t fuel i).count j = 1)
    ∧ (¬(Desc t i j ∧ isItemAt t j = true) → (visitFrom t fuel i).count j = 0) := by
  intro fuel
  induction fuel with
  | zero =>
    intro i hlen j
    constructor
    · rintro ⟨hd, hj⟩
      have h1 := Desc.le_of_wf hwf hd
      have h2 := isItemAt_lt hj
      omega
    · intro _
      rfl
  | succ fuel ih =>
    intro i hlen j
    cases hitem : isItemAt t i with
    | false =>
      rw [visitFrom_succ_not_item fuel hitem]
      have hnd : ¬(Desc t i j ∧ isItemAt t j = true) := by
        rintro ⟨hd, hj⟩
        cases hd with
        | refl => rw [hitem] at hj; cases hj
        | child hc _ =>
          rw [childIndices_empty_of_not_item hitem] at hc
          cases hc
      exact ⟨fun h => absurd h hnd, fun _ => rfl⟩
    | true =>
      obtain ⟨cc, ci, hti⟩ : ∃ cc ci, t[i]? = some (.item cc ci) := by
        unfold isItemAt at hitem
        cases hti : t[i]? with
        | none =>
          rw [hti] at hitem
          cases hitem
        | some node =>
          cases node with
          | item cc ci => exact ⟨cc, ci, rfl⟩
          | dynamicTree idx =>
            rw [hti] at hitem
            cases hitem
      have hchild := childIndices_of_getElem hti
      rw [visitFrom_succ_item fuel hti, count_cons_nat, count_flatMap_nat]
      have hfuel : ∀ c ∈ childIndices t i, t.length ≤ c + fuel := by
        intro c hcmem
        have := wf_child_forward hwf hcmem
        omega
      by_cases hij : j = i
      · have hzero : ∀ c ∈ (List.range cc).map (ci + ·),
            (visitFrom t fuel c).count j = 0 := by
          intro c hcmem
          have hcmem' : c ∈ childIndices t i := hchild ▸ hcmem
          refine (ih c (hfuel c hcmem') j).2 ?_
          rintro ⟨hd, _⟩
          have h1 := Desc.le_of_wf hwf hd
          have h2 := wf_child_forward hwf hcmem'
          omega
        rw [sum_map_eq_zero hzero, if_pos hij.symm]
        constructor
        · intro _
          rfl
        · intro hneg
          refine absurd ⟨?_, ?_⟩ hneg
          · rw [hij]
            exact Desc.refl i
          · rw [hij]
            exact hitem
      · rw [if_neg (fun h => hij h.symm)]
        by_cases hd : Desc t i j ∧ isItemAt t j = true
        · obtain ⟨hdij, hitemj⟩ := hd
          obtain ⟨cstar, hcstar, hdstar⟩ : ∃ c ∈ childIndices t i, Desc t c j := by
            cases hdij with
            | refl => exact absurd rfl (Ne.symm hij)
            | child hc hdc => exact ⟨_, hc, hdc⟩
          have hcount1 : (visitFrom t fuel cstar).count j = 1 :=
            (ih cstar (hfuel cstar hcstar) j).1 ⟨hdstar, hitemj⟩
          have hcount0 : ∀ x ∈ (List.range cc).map (ci + ·), x ≠ cstar →
              (visitFrom t fuel x).count j = 0 := by
            intro x hx hxne
            refine (ih x (hfuel x (hchild ▸ hx)) j).2 ?_
            rintro ⟨hdx, _⟩
            exact hxne (wf_child_desc_unique hwf (hchild ▸ hx) hcstar hdx hdstar)
          have hnd : ((List.range cc).map (ci + ·)).Nodup :=
            hchild ▸ childIndices_nodup t i
          rw [sum_map_eq_one (fun c => (visitFrom t fuel c).count j) cstar
            ((List.range cc).map (ci + ·)) hnd (hchild ▸ hcstar) hcount1 hcount0]
          exact ⟨fun _ => rfl, fun hneg => absurd ⟨hdij, hitemj⟩ hneg⟩
        · have hzero : ∀ x ∈ (List.range cc).map (ci + ·),
              (visitFrom t fuel x).count j = 0 := by
            intro x hx
            refine (ih x (hfuel x (hchild ▸ hx)) j).2 ?_
            rintro ⟨hdx, hitemx⟩
            exact hd ⟨Desc.child (hchild ▸ hx) hdx, hitemx⟩
          rw [sum_map_eq_zero hzero]
          exact ⟨fun h => absurd h hd, fun _ => rfl⟩

theorem sublist_flatMap_of_mem {α β : Type} {x : α} {l : List α} (f : α → List β)
    (hx : x ∈ l) : (f x).Sublist (l.flatMap f) := by
  induction l with
  | nil => cases hx
  | cons a l ih =>
    rcases List.mem_cons.mp hx with rfl | hxl
    · rw [List.flatMap_cons]
      exact List.sublist_append_left _ _
    · rw [List.flatMap_cons]
      exact (ih hxl).trans (List.sublist_append_right _ _)

/-- Ordering invariant of the traversal: an ancestor occurs before each
of its proper `Item` descendants in the visit list of any enclosing
subtree. -/
theorem visit_before (t : ItemTree) (hwf : wfTree t) : ∀ fuel i a b,
    t.length ≤ i + fuel → Desc t i a → Desc t a b → a ≠ b →
    isItemAt t b = true → [a, b].Sublist (visitFrom t fuel i) := by
  intro fuel
  induction fuel with
  | zero =>
    intro i a b hlen hia hab hne hb
    have h1 := Desc.le_of_wf hwf hia
    have h2 := Desc.le_of_wf hwf hab
    have h3 := isItemAt_lt hb
    exact absurd rfl (by omega : (0 : Nat) ≠ 0)
  | succ fuel ih =>
    intro i a b hlen hia hab hne hb
    by_cases hia' : i = a
    · obtain ⟨c, hc, hdc⟩ : ∃ c ∈ childIndices t a, Desc t c b := by
        cases hab with
        | refl => exact absurd rfl hne
        | child hc hdc => exact ⟨_, hc, hdc⟩
      rw [hia']
      obtain ⟨cc, ci, hti, _, _, _⟩ := mem_childIndices hc
      have hchild := childIndices_of_getElem hti
      rw [visitFrom_succ_item fuel hti]
      have hbmem : b ∈ visitFrom t fuel c := by
        have hfc : t.length ≤ c + fuel := by
          have h1 := wf_child_forward hwf hc
          omega
        have hcnt : (visitFrom t fuel c).count b = 1 :=
          (visit_count t hwf fuel c hfc b).1 ⟨hdc, hb⟩
        have hpos : 0 < (visitFrom t fuel c).count b := by omega
        exact List.count_pos_iff.mp hpos
      have hbflat : b ∈ ((List.range cc).map (ci + ·)).flatMap
          (fun c => visitFrom t fuel c) :=
        List.mem_flatMap.mpr ⟨c, hchild ▸ hc, hbmem⟩
      exact List.Sublist.cons₂ a (List.singleton_sublist.mpr hbflat)
    · obtain ⟨c, hc, hdc⟩ : ∃ c ∈ childIndices t i, Desc t c a := by
        cases hia with
        | refl => exact absurd rfl hia'
        | child hc hdc => exact ⟨_, hc, hdc⟩
      obtain ⟨cc, ci, hti, _, _, _⟩ := mem_childIndices hc
      have hchild := childIndices_of_getElem hti
      rw [visitFrom_succ_item fuel hti]
      have hsub : [a, b].Sublist (visitFrom t fuel c) := by
        refine ih c a b ?_ hdc hab hne hb
        have h1 := wf_child_forward hwf hc
        omega
      have hflat : (visitFrom t fuel c).Sublist
          (((List.range cc).map (ci + ·)).flatMap (fun x => visitFrom t fuel x)) :=
        sublist_flatMap_of_mem (fun x => visitFrom t fuel x) (hchild ▸ hc)
      exact ((hsub.trans hflat).trans (List.sublist_cons_self i _))

/-- **C1.** For every well-formed item tree (contiguous, in-bounds,
forward-pointing child ranges that encode a tree), a full traversal
from the root invokes the visitor exactly once for each static `Item`
node and never for a non-`Item` index, and every (proper) ancestor item
is visited before each of its `Item` descendants. -/
theorem c1_traversal_visits_items_once_parent_first (t : ItemTree) (hwf : wfTree t) :
    (∀ j, isItemAt t j = true → (visitOrder t).count j = 1)
    ∧ (∀ j, isItemAt t j = false → (visitOrder t).count j = 0)
    ∧ (∀ a b, Desc t a b → a ≠ b → isItemAt t b = true →
        [a, b].Sublist (visitOrder t)) := by
  refine ⟨?_, ?_, ?_⟩
  · intro j hj
    have hjn : j < t.length := isItemAt_lt hj
    exact (visit_count t hwf t.length 0 (by omega) j).1 ⟨desc_root hwf j hjn, hj⟩
  · intro j hj
    refine (visit_count t hwf t.length 0 (by omega) j).2 ?_
    rintro ⟨_, hj'⟩
    rw [hj] at hj'
    cases hj'
  · intro a b hab hne hb
    obtain ⟨c, hc, _⟩ : ∃ c ∈ childIndices t a, Desc t c b := by
      cases hab with
      | refl => exact absurd rfl hne
      | child hc hdc => exact ⟨_, hc, hdc⟩
    have ha : a < t.length := by
      obtain ⟨cc, ci, hti, _, _, _⟩ := mem_childIndices hc
      exact getElem?_some_lt hti
    exact visit_before t hwf t.length 0 a b (by omega) (desc_root hwf a ha) hab hne hb

/-- Witness for C1 on the concrete tree `c1ex`: item 3 is visited
exactly once, and its ancestor 1 is visited before it. -/
theorem c1_witness :
    (visitOrder c1ex).count 3 = 1 ∧ [1, 3].Sublist (visitOrder c1ex) :=
  ⟨(c1_traversal_visits_items_once_parent_first c1ex (by decide)).1 3 (by decide),
   (c1_traversal_visits_items_once_parent_first c1ex (by decide)).2.2 1 3
     (Desc.child (by decide : (3 : Nat) ∈ childIndices c1ex 1) (Desc.refl 3))
     (by decide) (by decide)⟩

/-- Witness for C7 at a concrete arc flattening. -/
theorem c7_witness :
    iterLy (pathDataIterElements c4arcImpl
        [PathElement.lineTo ⟨0, 0⟩, PathElement.lineTo ⟨10, 0⟩,
         PathElement.lineTo ⟨10, 10⟩, PathElement.close])
      = [LEvent.begin ⟨0, 0⟩, LEvent.line ⟨0, 0⟩ ⟨10, 0⟩,
         LEvent.line ⟨10, 0⟩ ⟨10, 10⟩, LEvent.end' ⟨0, 0⟩ ⟨10, 10⟩ true] :=
  c7_elements_round_trip c4arcImpl

/-- Witness for C10 at a concrete well-formed `Events` pair. -/
theorem c10_witness :
    isOkE (iterAllEvents [PathEvent.begin, PathEvent.line, PathEvent.endClosed]
        [⟨0, 0⟩, ⟨1, 1⟩, ⟨2, 2⟩]) = true
      ↔ wfEvents [PathEvent.begin, PathEvent.line, PathEvent.endClosed]
          [⟨0, 0⟩, ⟨1, 1⟩, ⟨2, 2⟩] :=
  c10_events_iteration_total_iff_wf
    [PathEvent.begin, PathEvent.line, PathEvent.endClosed] [⟨0, 0⟩, ⟨1, 1⟩, ⟨2, 2⟩]

end Sixtyfps
